import Mathlib

/-!
Verification of the jit-sdp-online-vs-offline repository.

This file gives a shallow embedding of the core stream-processing functions of
`jitsdp/baseline.py` (event extraction, noise filtering, event balancing, step
scheduling) and of the ORB / Scikit training wrappers of `jitsdp/pipeline.py`,
and proves the frozen claims about them.

Modelling conventions:
* A pandas DataFrame of commits or labeling events is a `List` of records.
  The fixed feature vector of a row is abstracted as a value of a type `F`
  with decidable equality (groupby on the feature columns compares feature
  tuples for equality, which is all the code uses).
* The `target` column only ever holds 0 or 1 in these frames, so it is
  embedded as `Bool` (`true` = 1 = bug, `false` = 0 = clean).
* Timestamps are integers (seconds since the epoch).
* Numeric ORB arithmetic (`float` in Python) is embedded over an arbitrary
  linear ordered field `K`; the Python `**` operator is an explicit function
  parameter `pw : K → K → K`.  Python's `/` raises `ZeroDivisionError` on a
  zero denominator, so division is embedded as the fallible `pydiv` returning
  `Option K` (`none` = the raised exception), and the fallibility is threaded
  through the callers.
* `sort_values(..., kind='mergesort')` is a stable sort by the given key; it
  is embedded as a left-fold insertion sort that inserts each new row after
  all rows with an equal or smaller key, which realizes exactly the stable
  sort semantics.
-/

variable {F : Type} [DecidableEq F]
variable {K : Type} [LinearOrderedField K]
variable {M B C : Type}

/-- A row of the commit stream (`make_stream` output used by `run` in
`baseline.py`): arrival timestamp, feature vector, target label and the bug-fix
timestamp (only meaningful when `target` is true). -/
structure Commit (F : Type) where
  timestamp : ℤ
  features : F
  target : Bool
  timestamp_fix : ℤ
  deriving DecidableEq

/-- A row of the labeling-event stream produced by `extract_events`: the code
keeps exactly the columns `['timestamp_event'] + FEATURES + ['target']`. -/
structure Event (F : Type) where
  timestamp_event : ℤ
  features : F
  target : Bool
  deriving DecidableEq

/-- Insert an event into a list that is sorted by `timestamp_event`, after all
events with an equal or smaller key (the insertion step of a stable sort). -/
def insertTE (e : Event F) : List (Event F) → List (Event F)
  | [] => [e]
  | f :: l =>
    if e.timestamp_event < f.timestamp_event then e :: f :: l
    else f :: insertTE e l

/-- Stable sort by `timestamp_event`, embedding
`df_events.sort_values('timestamp_event', kind='mergesort')`. -/
def sortByTE (l : List (Event F)) : List (Event F) :=
  l.foldl (fun acc e => insertTE e acc) []

/-- Embedding of `extract_events(df_commit, waiting_time)` from
`jitsdp/baseline.py`: clean commits become clean events delayed by the
verification latency, bug commits become bug events at their fix timestamp,
late-fixed bug commits additionally yield a corrective clean event, and the
concatenation is stably sorted by `timestamp_event`. -/
def extract_events (df_commit : List (Commit F)) (waiting_time : ℤ) : List (Event F) :=
  -- seconds_by_day = 24 * 60 * 60
  let verification_latency := waiting_time * (24 * 60 * 60)
  -- cleaned: df_commit[df_commit['target'] == 0], timestamp_event = timestamp + latency
  let df_cleaned := (df_commit.filter fun c => !c.target).map
    fun c => Event.mk (c.timestamp + verification_latency) c.features false
  -- bugged: df_commit[df_commit['target'] == 1], timestamp_event = timestamp_fix
  let df_bugged := (df_commit.filter fun c => c.target).map
    fun c => Event.mk c.timestamp_fix c.features true
  -- bug cleaned: bug rows with timestamp_fix - timestamp >= latency, target set
  -- to 0, timestamp_event = timestamp + latency
  let df_bug_cleaned := ((df_commit.filter fun c => c.target).filter
      fun c => decide (verification_latency ≤ c.timestamp_fix - c.timestamp)).map
    fun c => Event.mk (c.timestamp + verification_latency) c.features false
  sortByTE (df_cleaned ++ df_bugged ++ df_bug_cleaned)

/-- Worker for `remove_noise`.  The state assigns to each feature vector the
pair (number of clean rows seen so far in its group, number of bug rows seen so
far in its group); from it the pandas `cumcount` (rows strictly before the
current one in its group) and `cumsum` (bug rows up to and including the
current one) of the current row are recovered. -/
def removeNoiseGo (n : ℤ) (st : F → ℕ × ℕ) : List (Event F) → List (Event F)
  | [] => []
  | e :: rest =>
    let c := (st e.features).1
    let b := (st e.features).2
    -- cumcount: zero-based position of the row inside its group
    let cumcount : ℤ := (c : ℤ) + (b : ℤ)
    -- cumsum: cumulative sum of `target` inside the group, current row included
    let cumsum : ℤ := (b : ℤ) + (if e.target then 1 else 0)
    -- noise = (cumcount - cumsum >= orb_n) & (target == 1)
    let noise := e.target = true ∧ n ≤ cumcount - cumsum
    let st' := fun g => if g = e.features then
        (if e.target then (c, b + 1) else (c + 1, b)) else st g
    if noise then removeNoiseGo n st' rest else e :: removeNoiseGo n st' rest

/-- Embedding of `remove_noise(df_events, orb_n)` from `jitsdp/baseline.py`. -/
def remove_noise (n : ℤ) (df_events : List (Event F)) : List (Event F) :=
  removeNoiseGo n (fun _ => (0, 0)) df_events

/-- Number of rows of `pre` in the feature group `f`. -/
def groupCountIn (pre : List (Event F)) (f : F) : ℕ :=
  (pre.filter fun x => decide (x.features = f)).length

/-- Number of clean (target = 0) rows of `pre` in the feature group `f`. -/
def cleanCountIn (pre : List (Event F)) (f : F) : ℕ :=
  (pre.filter fun x => decide (x.features = f) && !x.target).length

/-- Number of bug (target = 1) rows of `pre` in the feature group `f`. -/
def bugCountIn (pre : List (Event F)) (f : F) : ℕ :=
  (pre.filter fun x => decide (x.features = f) && x.target).length

/-- Prefix-count reformulation of the rule actually implemented by
`remove_noise`: walking the stream with processed prefix `pre`, a row is
dropped iff it has target 1 and (rows strictly before it in its group) minus
(target-1 rows up to and including it in its group) is at least `n`. -/
def removeNoiseAt (n : ℤ) : List (Event F) → List (Event F) → List (Event F)
  | _, [] => []
  | pre, e :: rest =>
    let cumcount : ℤ := (groupCountIn pre e.features : ℤ)
    let cumsum : ℤ := (bugCountIn pre e.features : ℤ) + (if e.target then 1 else 0)
    let noise := e.target = true ∧ n ≤ cumcount - cumsum
    (if noise then [] else [e]) ++ removeNoiseAt n (pre ++ [e]) rest

/-- The drop rule exactly as the claim words it: a row is dropped iff it has
target 1 and cumulative_count(i) - cumulative_clean(i) >= n, where both counts
run over the row's feature group up to and including row i. -/
def removeNoiseClaim (n : ℤ) : List (Event F) → List (Event F) → List (Event F)
  | _, [] => []
  | pre, e :: rest =>
    let cumulative_count : ℤ := (groupCountIn (pre ++ [e]) e.features : ℤ)
    let cumulative_clean : ℤ := (cleanCountIn (pre ++ [e]) e.features : ℤ)
    let drop := e.target = true ∧ n ≤ cumulative_count - cumulative_clean
    (if drop then [] else [e]) ++ removeNoiseClaim n (pre ++ [e]) rest

/-- Worker for `balance_events`: `pool` is the FIFO queue `bug_pool`. -/
def balanceGo : List (Event F) → List (Event F) → List (Event F)
  | _, [] => []
  | pool, row :: rest =>
    if row.target then
      -- bug_pool.append(row)
      balanceGo (pool ++ [row]) rest
    else
      match pool with
      | [] => row :: balanceGo [] rest
      | bug :: pool' =>
        -- bug = bug_pool.pop(0); bug = bug._replace(timestamp_event=row.timestamp_event)
        row :: { bug with timestamp_event := row.timestamp_event } :: balanceGo pool' rest

/-- Embedding of `balance_events(df_events)` from `jitsdp/baseline.py`. -/
def balance_events (df_events : List (Event F)) : List (Event F) :=
  balanceGo [] df_events

/-- First-occurrence de-duplication with an accumulator of already seen
values; embeds `Series.drop_duplicates()` (which keeps first occurrences). -/
def dropDupAux : List ℤ → List ℤ → List ℤ
  | _, [] => []
  | seen, a :: l =>
    if a ∈ seen then dropDupAux seen l else a :: dropDupAux (a :: seen) l

/-- `Series.drop_duplicates()`. -/
def dropDup (l : List ℤ) : List ℤ :=
  dropDupAux [] l

/-- Membership of `x` in the `pd.cut` interval with edges `a < b`.  With
`right = true` the interval is `(a, b]`, except that `include_lowest` closes
the left end of the first interval; with `right = false` it is `[a, b)` and
`include_lowest` changes nothing. -/
def intervalMem (right includeLowest : Bool) (a b x : ℤ) : Bool :=
  if right then
    (if includeLowest then decide (a ≤ x) else decide (a < x)) && decide (x ≤ b)
  else
    decide (a ≤ x) && decide (x < b)

/-- Per-interval counts of `pd.cut(data, bins).value_counts(sort=False)` for
the non-first intervals, given the left edge `a` of the next interval. -/
def cutCountsGo (right : Bool) (data : List ℤ) : ℤ → List ℤ → List ℕ
  | _, [] => []
  | a, b :: rest =>
    data.countP (intervalMem right false a b) :: cutCountsGo right data b rest

/-- Per-interval counts of
`pd.cut(data, bins=edges, right=right, include_lowest=True).value_counts(sort=False)`. -/
def cutCounts (right : Bool) (data : List ℤ) : List ℤ → List ℕ
  | [] => []
  | [_] => []
  | e0 :: e1 :: rest =>
    data.countP (intervalMem right true e0 e1) :: cutCountsGo right data e1 rest

/-- Embedding of `calculate_steps(data, bins, right)` from
`jitsdp/baseline.py`.  `none` models the exceptions pandas raises (empty
`data` makes `min_max` empty, and `pd.cut` demands at least two strictly
increasing bin edges). -/
def calculate_steps (data bins : List ℤ) (right : Bool) : Option (List ℕ) :=
  match data with
  | [] => none
  | d0 :: _ =>
    let dL := data.getLastD d0
    -- min_max = concat([data[:1] - int(right), data[-1:] + int(not right)])
    let e0 := d0 - (if right then 1 else 0)
    let eL := dL + (if right then 0 else 1)
    -- internal_bins = bins[(min_max.min() < bins) & (bins < min_max.max())]
    let internal := bins.filter fun b => decide (min e0 eL < b) && decide (b < max e0 eL)
    -- full_bins = concat([min_max[:1], internal_bins, min_max[-1:]]).drop_duplicates()
    let full := dropDup (e0 :: (internal ++ [eL]))
    if 2 ≤ full.length ∧ List.Chain' (· < ·) full then
      -- steps = cut(...).value_counts(sort=False); steps = steps[steps > 0]
      some ((cutCounts right data full).filter fun k => decide (0 < k))
    else none

/-- Python float division: raises `ZeroDivisionError` (modelled as `none`) on
a zero denominator. -/
def pydiv (a b : K) : Option K :=
  if b = 0 then none else some (a / b)

/-- One iteration's bias-factor computation inside `ORB.train`
(`jitsdp/pipeline.py`): starting from `obf0 = obf1 = 1`, the branch taken by
the comparison of the moving average with `th` recomputes one of the two
factors; `pw` is Python's `**`. -/
def orbBias (pw : K → K → K) (th l0 l1 m ma : K) : Option (K × K) :=
  let obf0 : K := 1
  let obf1 : K := 1
  if th < ma then
    -- obf0 = ((m ** ma - m ** th) * l0) / (m - m ** th) + 1
    match pydiv ((pw m ma - pw m th) * l0) (m - pw m th) with
    | none => none
    | some v => some (v + 1, obf1)
  else if ma < th then
    -- obf1 = (((m ** (th - ma) - 1) * l1) / (m ** th - 1)) + 1
    match pydiv ((pw m (th - ma) - 1) * l1) (pw m th - 1) with
    | none => none
    | some v => some (obf0, v + 1)
  else
    some (obf0, obf1)

/-- The parameters stored by `ORB.__init__` in `jitsdp/pipeline.py`. -/
structure ORBParams (K : Type) where
  th : K
  m : K
  l0 : K
  l1 : K

/-- `ORB.__init__(classifier, normal_proportion)`: `th = 1 - normal_proportion`,
`m = 1.5`, `l0 = 10`, `l1 = 12`. -/
def orbInit (normal_proportion : K) : ORBParams K :=
  ⟨1 - normal_proportion, 3 / 2, 10, 12⟩

/-- The initial value of the local moving-average variable in `ORB.train`:
the code sets `ma = .4` at the start of every training call. -/
def orbInitialMa : K :=
  2 / 5

/-- Mean of a series of binary predictions (`df_output['prediction'].mean()`),
used to update the moving average. -/
def boolMean (l : List Bool) : K :=
  ((l.countP id : ℕ) : K) / ((l.length : ℕ) : K)

/-- The iteration loop of `ORB.train`: each pass computes the bias factors
from the current moving average, trains the wrapped classifier one inner
iteration with per-class weights `[obf0, obf1]`, re-predicts on the
moving-average window and replaces the moving average by the mean prediction.
The wrapped classifier is abstract: `ctrain` is its (stateful) train call and
`cpredict` its binary predictions on the moving-average window. -/
def orbTrainLoop (pw : K → K → K) (p : ORBParams K) (ctrain : C → K × K → C)
    (cpredict : C → List Bool) : ℕ → C → K → Option (C × K)
  | 0, c, ma => some (c, ma)
  | nIter + 1, c, ma =>
    match orbBias pw p.th p.l0 p.l1 p.m ma with
    | none => none
    | some obf =>
      let c' := ctrain c obf
      let ma' : K := boolMean (cpredict c')
      orbTrainLoop pw p ctrain cpredict nIter c' ma'

/-- `ORB.train`: runs `classifier.n_iterations` biased training passes
starting from the hard-coded moving average `orbInitialMa`. -/
def orbTrain (pw : K → K → K) (p : ORBParams K) (ctrain : C → K × K → C)
    (cpredict : C → List Bool) (nIterations : ℕ) (c : C) : Option (C × K) :=
  orbTrainLoop pw p ctrain cpredict nIterations c orbInitialMa

/-- The warnings `Scikit.train` can log. -/
inductive LogMsg where
  | twoClassesWarning
  deriving DecidableEq

/-- `np.unique(y)` followed by `len`: the number of distinct classes in the
target column of a training batch. -/
def npUniqueCount (targets : List ℕ) : ℕ :=
  targets.dedup.length

/-- The class-diversity check at the top of `_prepare_dataloaders`
(`jitsdp/pipeline.py`): raises `ValueError` (modelled as `none`) unless the
batch holds exactly two distinct classes. -/
def prepareDataloaders (targets : List ℕ) : Option Unit :=
  if npUniqueCount targets ≠ 2 then none else some ()

/-- The persistent state of a `Scikit` model: the wrapped sklearn classifier
(abstract type `M`) and the `trained` flag. -/
structure ScikitState (M : Type) where
  classifier : M
  trained : Bool

/-- The nested loop of `Scikit.train`: `for i in range(n_iterations): for
inputs, targets in sampled_train_dataloader: self.train_iteration(...)`. -/
def runIterations (trainIteration : M → B → M) (batches : List B) : ℕ → M → M
  | 0, m => m
  | k + 1, m => runIterations trainIteration batches k (batches.foldl trainIteration m)

/-- Embedding of `Scikit.train` (`jitsdp/pipeline.py`).  The `try/except
ValueError` around `_prepare_dataloaders` is the `none` branch: the error is
caught, a warning is logged and the call returns with the state untouched.
Otherwise the training iterations run and `trained` is set once the sampled
batches covered both classes (an empty iteration count samples nothing).  The
randomly sampled dataloader contents are the abstract `batches`. -/
def scikitTrain (trainIteration : M → B → M) (batches : List B) (batchTargets : B → List ℕ)
    (nIterations : ℕ) (st : ScikitState M) (targets : List ℕ) : ScikitState M × List LogMsg :=
  match prepareDataloaders targets with
  | none => (st, [LogMsg.twoClassesWarning])
  | some _ =>
    let classifier := runIterations trainIteration batches nIterations st.classifier
    let sampledClasses : List ℕ :=
      if nIterations = 0 then [] else ((batches.map batchTargets).flatten).dedup
    (⟨classifier, if sampledClasses.length = 2 then true else st.trained⟩, [])

/-- C1: whenever the two denominators of the bias curve are nonzero, each ORB
training iteration computes the per-class bias factors exactly by the
piecewise formula: for `ma > th` it yields
`obf0 = ((m^ma - m^th) * l0) / (m - m^th) + 1` and `obf1 = 1`, for `ma < th`
it yields `obf1 = ((m^(th-ma) - 1) * l1) / (m^th - 1) + 1` and `obf0 = 1`,
and for `ma = th` both factors are 1. -/
theorem orb_bias_piecewise (pw : K → K → K) (th l0 l1 m ma : K)
    (hm : pw m th ≠ m) (h1 : pw m th ≠ 1) :
    orbBias pw th l0 l1 m ma =
      some (if th < ma then ((pw m ma - pw m th) * l0) / (m - pw m th) + 1 else 1,
            if ma < th then ((pw m (th - ma) - 1) * l1) / (pw m th - 1) + 1 else 1) := by
  have h0 : m - pw m th ≠ 0 := sub_ne_zero.mpr (Ne.symm hm)
  have h1' : pw m th - 1 ≠ 0 := sub_ne_zero.mpr h1
  rcases lt_trichotomy th ma with h | h | h
  · simp [orbBias, pydiv, h, h0, lt_asymm h]
  · simp [orbBias, h, lt_irrefl]
  · simp [orbBias, pydiv, h, h1', lt_asymm h]

theorem orb_bias_piecewise_witness :
    ((fun _ _ : ℚ => 5) 3 2 ≠ (3 : ℚ)) ∧ ((fun _ _ : ℚ => 5) 3 2 ≠ (1 : ℚ)) ∧
      orbBias (fun _ _ : ℚ => 5) 2 10 12 3 4 =
        some
          (if (2 : ℚ) < 4 then
            (((fun _ _ : ℚ => 5) 3 4 - (fun _ _ : ℚ => 5) 3 2) * 10) /
              ((3 : ℚ) - (fun _ _ : ℚ => 5) 3 2) + 1
          else 1,
          if (4 : ℚ) < 2 then
            (((fun _ _ : ℚ => 5) 3 (2 - 4) - 1) * 12) /
              ((fun _ _ : ℚ => 5) 3 2 - 1) + 1
          else 1) :=
  ⟨by decide, by decide,
    orb_bias_piecewise (fun _ _ : ℚ => 5) 2 10 12 3 4 (by decide) (by decide)⟩

/-- C5 counterexample: with `normal_proportion = 1/5` the target threshold is
`th = 4/5`, but `ORB.train` initializes its moving average to the hard-coded
constant `0.4`, not to `th`. -/
theorem orb_ma_init_counterexample :
    orbInitialMa (K := ℚ) ≠ (orbInit (1 / 5 : ℚ)).th := by
  norm_num [orbInitialMa, orbInit]

/-- C5 amended: the moving average is initialized to the constant `0.4`,
which lies in `[0, 1]`; it coincides with the target threshold `th` exactly
when `normal_proportion = 3/5`. -/
theorem orb_ma_init_amended (np : K) :
    (0 : K) ≤ orbInitialMa ∧ (orbInitialMa : K) ≤ 1 ∧
      ((orbInitialMa : K) = (orbInit np).th ↔ np = 3 / 5) := by
  refine ⟨by norm_num [orbInitialMa], by norm_num [orbInitialMa], ?_⟩
  unfold orbInitialMa orbInit
  constructor <;> intro h <;> [linarith; (rw [h]; norm_num)]

/-- C6: the bias-curve computation is not guarded against a zero denominator.
At `m = 1`, `th = 0.4`, `l0 = 10`, `l1 = 12` and moving average `0.5` the
taken branch divides by `m - m^th = 1 - 1 = 0`, so the Python code raises
`ZeroDivisionError` (result `none`) instead of yielding `obf0 = obf1 = 1`. -/
theorem orb_bias_zero_div_at_m_one :
    orbBias Real.rpow (2 / 5 : ℝ) 10 12 1 (1 / 2) = none := by
  have hth : (2 / 5 : ℝ) < 1 / 2 := by norm_num
  have hr : Real.rpow 1 (2 / 5 : ℝ) = 1 := Real.one_rpow _
  have hd : (1 : ℝ) - Real.rpow 1 (2 / 5) = 0 := by rw [hr]; ring
  simp only [orbBias, pydiv, if_pos hth, hd]
  simp

/-- C9: a training batch with fewer than two distinct classes makes
`_prepare_dataloaders` raise `ValueError`; `Scikit.train` catches it, logs a
warning and returns at once, so no training iteration runs, the model state
(classifier and `trained` flag) is untouched and no exception propagates. -/
theorem scikit_train_skips (trainIteration : M → B → M) (batches : List B)
    (batchTargets : B → List ℕ) (nIterations : ℕ) (st : ScikitState M) (targets : List ℕ)
    (h : npUniqueCount targets < 2) :
    scikitTrain trainIteration batches batchTargets nIterations st targets
      = (st, [LogMsg.twoClassesWarning]) := by
  have hne : npUniqueCount targets ≠ 2 := by omega
  simp [scikitTrain, prepareDataloaders, hne]

theorem scikit_train_skips_witness :
    npUniqueCount [1, 1] < 2 ∧
      scikitTrain (fun (m _ : ℕ) => m + 1) [0] (fun _ => [0, 1]) 3
          (ScikitState.mk 7 false) [1, 1]
        = (ScikitState.mk 7 false, [LogMsg.twoClassesWarning]) :=
  ⟨by decide,
    scikit_train_skips (fun (m _ : ℕ) => m + 1) [0] (fun _ => [0, 1]) 3
      (ScikitState.mk 7 false) [1, 1] (by decide)⟩


theorem insertTE_perm (e : Event F) (l : List (Event F)) :
    (insertTE e l).Perm (e :: l) := by
  induction l with
  | nil => simp [insertTE]
  | cons f t ih =>
    simp only [insertTE]
    split
    · exact List.Perm.refl _
    · exact (ih.cons f).trans (List.Perm.swap e f t)

theorem insertTE_sorted (e : Event F) (l : List (Event F))
    (h : List.Sorted (fun a b : Event F => a.timestamp_event ≤ b.timestamp_event) l) :
    List.Sorted (fun a b : Event F => a.timestamp_event ≤ b.timestamp_event) (insertTE e l) := by
  induction l with
  | nil => simp [insertTE]
  | cons f t ih =>
    rw [List.sorted_cons] at h
    simp only [insertTE]
    split
    · rename_i hlt
      rw [List.sorted_cons]
      refine ⟨?_, List.sorted_cons.mpr h⟩
      intro b hb
      rcases List.mem_cons.mp hb with hb | hb
      · exact hb ▸ hlt.le
      · exact hlt.le.trans (h.1 b hb)
    · rename_i hge
      rw [List.sorted_cons]
      refine ⟨?_, ih h.2⟩
      intro b hb
      rcases List.mem_cons.mp ((insertTE_perm e t).mem_iff.mp hb) with hb | hb
      · exact hb ▸ le_of_not_lt hge
      · exact h.1 b hb

theorem insertTE_filter_eq (e : Event F) (l : List (Event F)) (t : ℤ)
    (h : List.Sorted (fun a b : Event F => a.timestamp_event ≤ b.timestamp_event) l) :
    (insertTE e l).filter (fun x => decide (x.timestamp_event = t)) =
      if e.timestamp_event = t then
        l.filter (fun x => decide (x.timestamp_event = t)) ++ [e]
      else l.filter (fun x => decide (x.timestamp_event = t)) := by
  induction l with
  | nil => by_cases he : e.timestamp_event = t <;> simp [insertTE, he]
  | cons f t' ih =>
    rw [List.sorted_cons] at h
    simp only [insertTE]
    split
    · rename_i hlt
      by_cases he : e.timestamp_event = t
      · have hnil : (f :: t').filter (fun x => decide (x.timestamp_event = t)) = [] := by
          rw [List.filter_eq_nil_iff]
          intro a ha
          have hfa : f.timestamp_event ≤ a.timestamp_event := by
            rcases List.mem_cons.mp ha with h' | h'
            · exact h' ▸ le_refl _
            · exact h.1 a h'
          have hta : t < a.timestamp_event := lt_of_lt_of_le (he ▸ hlt) hfa
          simp [ne_of_gt hta]
        rw [if_pos he, hnil, List.filter_cons, if_pos (by simp [he]), hnil]
        simp
      · rw [if_neg he]
        simp [List.filter_cons, he]
    · by_cases hf : f.timestamp_event = t <;>
        by_cases he : e.timestamp_event = t <;>
        simp [List.filter_cons, hf, he, ih h.2]

theorem foldl_insertTE_sorted (l acc : List (Event F))
    (hacc : List.Sorted (fun a b : Event F => a.timestamp_event ≤ b.timestamp_event) acc) :
    List.Sorted (fun a b : Event F => a.timestamp_event ≤ b.timestamp_event)
      (l.foldl (fun acc e => insertTE e acc) acc) := by
  induction l generalizing acc with
  | nil => exact hacc
  | cons e rest ih => exact ih (insertTE e acc) (insertTE_sorted e acc hacc)

theorem foldl_insertTE_perm (l acc : List (Event F)) :
    (l.foldl (fun acc e => insertTE e acc) acc).Perm (acc ++ l) := by
  induction l generalizing acc with
  | nil => simp
  | cons e rest ih =>
    rw [List.foldl_cons]
    have h1 : (insertTE e acc ++ rest).Perm (e :: (acc ++ rest)) :=
      (insertTE_perm e acc).append_right rest
    exact ((ih (insertTE e acc)).trans (h1.trans List.perm_middle.symm))

theorem foldl_insertTE_filter (l acc : List (Event F)) (t : ℤ)
    (hacc : List.Sorted (fun a b : Event F => a.timestamp_event ≤ b.timestamp_event) acc) :
    (l.foldl (fun acc e => insertTE e acc) acc).filter (fun x => decide (x.timestamp_event = t)) =
      acc.filter (fun x => decide (x.timestamp_event = t))
        ++ l.filter (fun x => decide (x.timestamp_event = t)) := by
  induction l generalizing acc with
  | nil => simp
  | cons e rest ih =>
    rw [List.foldl_cons, ih (insertTE e acc) (insertTE_sorted e acc hacc),
      insertTE_filter_eq e acc t hacc]
    by_cases he : e.timestamp_event = t
    · simp [he, List.filter_cons]
    · simp [he, List.filter_cons]

theorem sortByTE_sorted (l : List (Event F)) :
    List.Sorted (fun a b : Event F => a.timestamp_event ≤ b.timestamp_event) (sortByTE l) :=
  foldl_insertTE_sorted l [] (by simp)

theorem sortByTE_perm (l : List (Event F)) : (sortByTE l).Perm l :=
  (foldl_insertTE_perm l []).trans (by simp)

theorem sortByTE_filter (l : List (Event F)) (t : ℤ) :
    (sortByTE l).filter (fun x => decide (x.timestamp_event = t)) =
      l.filter (fun x => decide (x.timestamp_event = t)) :=
  (foldl_insertTE_filter l [] t (by simp)).trans (by simp)

/-- C3: `extract_events` emits exactly the three claimed row sets — every
target-0 commit as a clean event at `timestamp + verification_latency`, every
target-1 commit as a bug event at `timestamp_fix`, and for every target-1
commit with `timestamp_fix - timestamp >= verification_latency` one additional
corrective target-0 event at `timestamp + verification_latency` — merged and
stably sorted by `timestamp_event`: the output is sorted, is a permutation of
the merged sets, and for every tie value `t` the rows with that
`timestamp_event` keep their original relative order. -/
theorem extract_events_spec (df : List (Commit F)) (w : ℤ) :
    let vl := w * (24 * 60 * 60)
    let L := (df.filter fun c => !c.target).map
        (fun c => Event.mk (c.timestamp + vl) c.features false)
      ++ (df.filter fun c => c.target).map
        (fun c => Event.mk c.timestamp_fix c.features true)
      ++ (df.filter fun c => c.target && decide (vl ≤ c.timestamp_fix - c.timestamp)).map
        (fun c => Event.mk (c.timestamp + vl) c.features false)
    List.Sorted (fun a b : Event F => a.timestamp_event ≤ b.timestamp_event) (extract_events df w)
      ∧ (extract_events df w).Perm L
      ∧ ∀ t : ℤ, (extract_events df w).filter (fun e => decide (e.timestamp_event = t))
          = L.filter (fun e => decide (e.timestamp_event = t)) := by
  intro vl L
  have hsrc : extract_events df w = sortByTE L := by
    have hff : ((df.filter fun c => c.target).filter
          fun c => decide (vl ≤ c.timestamp_fix - c.timestamp))
        = df.filter fun c => c.target && decide (vl ≤ c.timestamp_fix - c.timestamp) := by
      rw [List.filter_filter]
      apply List.filter_congr
      intro c _
      exact Bool.and_comm _ _
    show sortByTE
        ((df.filter fun c => !c.target).map
            (fun c => Event.mk (c.timestamp + vl) c.features false)
          ++ (df.filter fun c => c.target).map
            (fun c => Event.mk c.timestamp_fix c.features true)
          ++ ((df.filter fun c => c.target).filter
              fun c => decide (vl ≤ c.timestamp_fix - c.timestamp)).map
            (fun c => Event.mk (c.timestamp + vl) c.features false))
      = sortByTE L
    rw [hff]
  refine ⟨hsrc ▸ sortByTE_sorted L, hsrc ▸ sortByTE_perm L, fun t => hsrc ▸ sortByTE_filter L t⟩

theorem groupCountIn_split (pre : List (Event F)) (f : F) :
    groupCountIn pre f = cleanCountIn pre f + bugCountIn pre f := by
  induction pre with
  | nil => rfl
  | cons x l ih =>
    simp only [groupCountIn, cleanCountIn, bugCountIn, List.filter_cons] at *
    by_cases hf : x.features = f
    · cases ht : x.target <;> simp [hf, ht] <;> omega
    · simp [hf]
      omega

theorem cleanCountIn_append (pre : List (Event F)) (e : Event F) (f : F) :
    cleanCountIn (pre ++ [e]) f
      = cleanCountIn pre f + (if e.features = f ∧ e.target = false then 1 else 0) := by
  simp only [cleanCountIn, List.filter_append]
  by_cases hf : e.features = f
  · cases ht : e.target <;> simp [List.filter_cons, hf, ht]
  · simp [List.filter_cons, hf]

theorem bugCountIn_append (pre : List (Event F)) (e : Event F) (f : F) :
    bugCountIn (pre ++ [e]) f
      = bugCountIn pre f + (if e.features = f ∧ e.target = true then 1 else 0) := by
  simp only [bugCountIn, List.filter_append]
  by_cases hf : e.features = f
  · cases ht : e.target <;> simp [List.filter_cons, hf, ht]
  · simp [List.filter_cons, hf]

theorem removeNoiseGo_idem (n : ℤ) (l : List (Event F)) :
    ∀ st1 st2 : F → ℕ × ℕ, (∀ f, (st1 f).1 = (st2 f).1) →
      removeNoiseGo n st2 (removeNoiseGo n st1 l) = removeNoiseGo n st1 l := by
  induction l with
  | nil => intro st1 st2 _; rfl
  | cons e rest ih =>
    intro st1 st2 hcl
    have hc : (st1 e.features).1 = (st2 e.features).1 := hcl e.features
    simp only [removeNoiseGo]
    by_cases ht : e.target = true
    · by_cases hn : n ≤ ((st1 e.features).1 : ℤ) + ((st1 e.features).2 : ℤ)
          - (((st1 e.features).2 : ℤ) + (if e.target = true then 1 else 0))
      · rw [if_pos ⟨ht, hn⟩]
        refine ih _ st2 (fun f => ?_)
        by_cases hf : f = e.features
        · subst hf; simp [ht, hc]
        · simp [hf, hcl f]
      · rw [if_neg (fun hcon => hn hcon.2)]
        simp only [removeNoiseGo]
        have hn2 : ¬ n ≤ ((st2 e.features).1 : ℤ) + ((st2 e.features).2 : ℤ)
            - (((st2 e.features).2 : ℤ) + (if e.target = true then 1 else 0)) := by
          simp only [ht, if_pos] at hn ⊢
          omega
        rw [if_neg (fun hcon => hn2 hcon.2)]
        congr 1
        refine ih _ _ (fun f => ?_)
        by_cases hf : f = e.features
        · subst hf; simp [ht, hc]
        · simp [hf, hcl f]
    · rw [if_neg (fun hcon => ht hcon.1)]
      simp only [removeNoiseGo]
      rw [if_neg (fun hcon => ht hcon.1)]
      congr 1
      refine ih _ _ (fun f => ?_)
      by_cases hf : f = e.features
      · subst hf; simp [ht, hc]
      · simp [hf, hcl f]

/-- C7: the noise filter is idempotent — re-running `remove_noise` on its own
output removes no further rows, because clean rows are never dropped and the
drop condition of a bug row only depends on the clean rows before it in its
feature group. -/
theorem remove_noise_idem (n : ℤ) (df : List (Event F)) :
    remove_noise n (remove_noise n df) = remove_noise n df :=
  removeNoiseGo_idem n df _ _ (fun _ => rfl)

theorem removeNoiseGo_eq_at (n : ℤ) (l : List (Event F)) :
    ∀ (pre : List (Event F)) (st : F → ℕ × ℕ),
      (∀ f, st f = (cleanCountIn pre f, bugCountIn pre f)) →
      removeNoiseGo n st l = removeNoiseAt n pre l := by
  induction l with
  | nil => intro pre st _; rfl
  | cons e rest ih =>
    intro pre st hst
    have he := hst e.features
    simp only [removeNoiseGo, removeNoiseAt]
    have hcc : ((st e.features).1 : ℤ) + ((st e.features).2 : ℤ)
        = (groupCountIn pre e.features : ℤ) := by
      rw [he, groupCountIn_split pre e.features]
      push_cast
      ring
    have hbb : ((st e.features).2 : ℤ) = (bugCountIn pre e.features : ℤ) := by rw [he]
    rw [hcc, hbb]
    have hnext : ∀ f, (fun g => if g = e.features then
          (if e.target then ((st e.features).1, (st e.features).2 + 1)
            else ((st e.features).1 + 1, (st e.features).2)) else st g) f
        = (cleanCountIn (pre ++ [e]) f, bugCountIn (pre ++ [e]) f) := by
      intro f
      by_cases hf : f = e.features
      · subst hf
        cases ht : e.target <;>
          simp [ht, he, cleanCountIn_append, bugCountIn_append]
      · have hfe : e.features ≠ f := fun h => hf h.symm
        simp [hf, hst f, cleanCountIn_append, bugCountIn_append, hfe]
    by_cases hcond : e.target = true
        ∧ n ≤ (groupCountIn pre e.features : ℤ)
          - ((bugCountIn pre e.features : ℤ) + (if e.target = true then 1 else 0))
    · rw [if_pos hcond, if_pos hcond]
      simp only [List.nil_append]
      exact ih (pre ++ [e]) _ hnext
    · rw [if_neg hcond, if_neg hcond]
      simp only [List.singleton_append, List.cons.injEq, true_and]
      exact ih (pre ++ [e]) _ hnext

/-- C4 amended: `remove_noise` drops exactly those rows `i` with target 1 for
which, within row `i`'s feature group, (rows strictly before `i`) minus
(target-1 rows up to and including `i`) is at least `n` — i.e. pandas
`cumcount` (exclusive of the row) minus `cumsum` of the target column
(inclusive); every other row is kept unchanged and in order. -/
theorem remove_noise_amended (n : ℤ) (df : List (Event F)) :
    remove_noise n df = removeNoiseAt n [] df :=
  removeNoiseGo_eq_at n df [] _ (fun f => by simp [cleanCountIn, bugCountIn])

/-- C4 counterexample: on a stream of three identical bug rows with `n = 3`
the claimed rule (inclusive cumulative count minus inclusive cumulative clean
count) drops the third row, but `remove_noise` keeps all three: its condition
compares the exclusive `cumcount` with the inclusive `cumsum` and therefore
counts clean rows, not bug rows. -/
theorem remove_noise_claim_counterexample :
    remove_noise (F := ℕ) 3 [⟨1, 0, true⟩, ⟨2, 0, true⟩, ⟨3, 0, true⟩]
      ≠ removeNoiseClaim 3 [] [⟨1, 0, true⟩, ⟨2, 0, true⟩, ⟨3, 0, true⟩] := by
  decide

theorem balanceGo_spec (rest : List (Event F)) :
    ∀ pool : List (Event F), (∀ e ∈ pool, e.target = true) →
      ∃ p : ℕ,
        (balanceGo pool rest).filter (fun e => !e.target) = rest.filter (fun e => !e.target)
        ∧ ((balanceGo pool rest).filter (fun e => e.target)).map (fun e => (e.features, e.target))
            = ((pool ++ rest.filter (fun e => e.target)).take p).map
                (fun e => (e.features, e.target))
        ∧ p ≤ pool.length + (rest.filter (fun e => e.target)).length := by
  induction rest with
  | nil =>
    intro pool _
    exact ⟨0, by simp [balanceGo], by simp [balanceGo], by simp⟩
  | cons row rest ih =>
    intro pool hp
    by_cases ht : row.target = true
    · have hp' : ∀ e ∈ pool ++ [row], e.target = true := by
        intro e he
        rcases List.mem_append.mp he with h | h
        · exact hp e h
        · simpa using (List.mem_singleton.mp h) ▸ ht
      obtain ⟨p, h1, h2, h3⟩ := ih (pool ++ [row]) hp'
      refine ⟨p, ?_, ?_, ?_⟩
      · simpa [balanceGo, ht, List.filter_cons] using h1
      · simpa [balanceGo, ht, List.filter_cons, List.append_assoc] using h2
      · simp only [List.length_append, List.length_cons, List.length_nil] at h3
        simp [List.filter_cons, ht]
        omega
    · have ht' : row.target = false := by simpa using ht
      cases pool with
      | nil =>
        obtain ⟨p, h1, h2, h3⟩ := ih [] (by simp)
        refine ⟨p, ?_, ?_, ?_⟩
        · simp [balanceGo, ht', List.filter_cons, h1]
        · simpa [balanceGo, ht', List.filter_cons] using h2
        · simpa [ht', List.filter_cons] using h3
      | cons bug pool' =>
        have hbt : bug.target = true := hp bug (by simp)
        have hp' : ∀ e ∈ pool', e.target = true := fun e he => hp e (by simp [he])
        obtain ⟨p, h1, h2, h3⟩ := ih pool' hp'
        refine ⟨p + 1, ?_, ?_, ?_⟩
        · simp [balanceGo, ht', hbt, List.filter_cons, h1]
        · simp [balanceGo, ht', hbt, List.filter_cons, h2]
        · simp [List.filter_cons, ht']
          omega

/-- C8: the multiset of events emitted by `balance_events` is the input
multiset minus the unmatched trailing bug events, with each paired bug event
differing only in its reassigned `timestamp_event`: the clean rows come out
unchanged and in order, the emitted bug rows are exactly the first `p` bug
rows of the input (feature vector and target preserved, in order), where the
dropped `len(bugs) - p` bug events are the trailing suffix of the bug
subsequence, and modulo `timestamp_event` the output is a permutation of
cleans plus those first `p` bugs — no feature vector is fabricated or
duplicated. -/
theorem balance_events_spec (df : List (Event F)) :
    ∃ p : ℕ,
      (balance_events df).filter (fun e => !e.target) = df.filter (fun e => !e.target)
      ∧ ((balance_events df).filter (fun e => e.target)).map (fun e => (e.features, e.target))
          = ((df.filter (fun e => e.target)).take p).map (fun e => (e.features, e.target))
      ∧ p ≤ (df.filter (fun e => e.target)).length
      ∧ ((balance_events df).map (fun e => (e.features, e.target))).Perm
          ((df.filter (fun e => !e.target) ++ (df.filter (fun e => e.target)).take p).map
            (fun e => (e.features, e.target))) := by
  obtain ⟨p, h1, h2, h3⟩ := balanceGo_spec df [] (by simp)
  have h1' : (balance_events df).filter (fun e => !e.target)
      = df.filter (fun e => !e.target) := h1
  have h2' : ((balance_events df).filter (fun e => e.target)).map (fun e => (e.features, e.target))
      = ((df.filter (fun e => e.target)).take p).map (fun e => (e.features, e.target)) := by
    simpa using h2
  refine ⟨p, h1', h2', by simpa using h3, ?_⟩
  have hperm := (List.filter_append_perm (fun e => !e.target) (balance_events df)).symm.map
    (fun e : Event F => (e.features, e.target))
  simp only [List.map_append, Bool.not_not] at hperm
  rw [h1', h2'] at hperm
  rw [List.map_append]
  exact hperm

theorem balanceGo_shape (rest : List (Event F)) :
    ∀ pool : List (Event F),
      ((balanceGo pool rest).head?.all fun e => !e.target) = true
      ∧ List.Chain' (fun a b : Event F => a.target = false ∨ b.target = false)
          (balanceGo pool rest) := by
  induction rest with
  | nil => intro pool; simp [balanceGo]
  | cons row rest ih =>
    intro pool
    by_cases ht : row.target = true
    · simpa [balanceGo, ht] using ih (pool ++ [row])
    · have ht' : row.target = false := by simpa using ht
      cases pool with
      | nil =>
        obtain ⟨hh, hc⟩ := ih []
        have hred : balanceGo ([] : List (Event F)) (row :: rest)
            = row :: balanceGo [] rest := by
          simp [balanceGo, ht']
        rw [hred]
        refine ⟨by simp [ht'], ?_⟩
        rw [List.chain'_cons']
        exact ⟨fun b _ => Or.inl ht', hc⟩
      | cons bug pool' =>
        obtain ⟨hh, hc⟩ := ih pool'
        have hred : balanceGo (bug :: pool') (row :: rest)
            = row :: { bug with timestamp_event := row.timestamp_event }
                :: balanceGo pool' rest := by
          simp [balanceGo, ht']
        rw [hred]
        refine ⟨by simp [ht'], ?_⟩
        rw [List.chain'_cons']
        refine ⟨fun b _ => Or.inl ht', ?_⟩
        rw [List.chain'_cons']
        refine ⟨fun b hb => ?_, hc⟩
        cases hob : (balanceGo pool' rest).head? with
        | none => simp [hob] at hb
        | some x =>
          rw [hob] at hb
          have hx : x.target = false := by
            rw [hob] at hh
            simpa using hh
          exact Or.inr ((Option.mem_some_iff.mp hb) ▸ hx)

/-- C10: in the output of `balance_events` every target-1 event is immediately
preceded by a target-0 event: the output never begins with a bug event
(`head?.all` says any first element is clean) and never holds two consecutive
bug events (each adjacent pair has at least one clean member). -/
theorem balance_events_bug_preceded (df : List (Event F)) :
    ((balance_events df).head?.all fun e => !e.target) = true
    ∧ List.Chain' (fun a b : Event F => a.target = false ∨ b.target = false)
        (balance_events df) :=
  balanceGo_shape df []

theorem dropDupAux_sublist : ∀ (l seen : List ℤ), (dropDupAux seen l).Sublist l
  | [], _ => List.Sublist.refl _
  | a :: l, seen => by
    simp only [dropDupAux]
    split
    · exact (dropDupAux_sublist l seen).cons a
    · exact (dropDupAux_sublist l (a :: seen)).cons₂ a

theorem mem_dropDupAux : ∀ (l seen : List ℤ) (x : ℤ),
    x ∈ dropDupAux seen l ↔ x ∈ l ∧ x ∉ seen
  | [], seen, x => by simp [dropDupAux]
  | a :: l, seen, x => by
    simp only [dropDupAux]
    split
    · rename_i ha
      rw [mem_dropDupAux l seen x]
      constructor
      · exact fun ⟨h1, h2⟩ => ⟨List.mem_cons_of_mem a h1, h2⟩
      · rintro ⟨h1, h2⟩
        rcases List.mem_cons.mp h1 with h1 | h1
        · exact absurd (h1 ▸ ha) h2
        · exact ⟨h1, h2⟩
    · rename_i ha
      rw [List.mem_cons, mem_dropDupAux l (a :: seen) x]
      constructor
      · rintro (h | ⟨h1, h2⟩)
        · subst h
          exact ⟨List.mem_cons_self x l, ha⟩
        · exact ⟨List.mem_cons_of_mem a h1, fun hs => h2 (List.mem_cons_of_mem a hs)⟩
      · rintro ⟨h1, h2⟩
        rcases List.mem_cons.mp h1 with h1 | h1
        · exact Or.inl h1
        · by_cases hxa : x = a
          · exact Or.inl hxa
          · exact Or.inr ⟨h1, fun hs =>
              (List.mem_cons.mp hs).elim hxa fun hs' => h2 hs'⟩

theorem dropDupAux_nodup : ∀ (l seen : List ℤ), (dropDupAux seen l).Nodup
  | [], _ => List.nodup_nil
  | a :: l, seen => by
    simp only [dropDupAux]
    split
    · exact dropDupAux_nodup l seen
    · refine List.nodup_cons.mpr ⟨?_, dropDupAux_nodup l (a :: seen)⟩
      intro ha
      exact ((mem_dropDupAux l (a :: seen) a).mp ha).2 (List.mem_cons_self a seen)

theorem getLastD_mem : ∀ (l : List ℤ) (d : ℤ), l ≠ [] → l.getLastD d ∈ l
  | [], _, h => absurd rfl h
  | [a], d, _ => by simp
  | a :: b :: l, d, _ => by
    rw [List.getLastD_cons]
    exact List.mem_cons_of_mem a (getLastD_mem (b :: l) a (by simp))

theorem le_getLastD_of_sorted : ∀ (l : List ℤ) (d x : ℤ),
    List.Sorted (· ≤ ·) l → x ∈ l → x ≤ l.getLastD d
  | [], _, _, _, hx => absurd hx (List.not_mem_nil _)
  | a :: t, d, x, hs, hx => by
    rw [List.getLastD_cons]
    rw [List.sorted_cons] at hs
    rcases List.mem_cons.mp hx with hx | hx
    · subst hx
      cases t with
      | nil => simp
      | cons b t' =>
        exact le_trans (hs.1 b (List.mem_cons_self b t'))
          (le_getLastD_of_sorted (b :: t') x b hs.2 (List.mem_cons_self b t'))
    · exact le_getLastD_of_sorted t a x hs.2 hx

theorem chain'_le_getLastD : ∀ (rest : List ℤ) (b : ℤ),
    List.Chain' (· ≤ ·) (b :: rest) → b ≤ rest.getLastD b
  | [], b, _ => le_refl b
  | c :: rest, b, h => by
    rw [List.getLastD_cons]
    rcases List.chain'_cons.mp h with ⟨hbc, hc⟩
    exact hbc.trans (chain'_le_getLastD rest c hc)

theorem countP_split (p q r : ℤ → Bool) (l : List ℤ)
    (h : ∀ x ∈ l, (r x = true ↔ (p x = true ∨ q x = true)) ∧ ¬(p x = true ∧ q x = true)) :
    l.countP r = l.countP p + l.countP q := by
  induction l with
  | nil => rfl
  | cons a l ih =>
    have ha := h a (List.mem_cons_self a l)
    have ihl := ih fun x hx => h x (List.mem_cons_of_mem a hx)
    simp only [List.countP_cons, ihl]
    rcases hp : p a <;> rcases hq : q a <;> rcases hr : r a <;>
      simp [hp, hq, hr] at ha ⊢ <;> omega

theorem sum_filter_pos (l : List ℕ) : (l.filter fun k => decide (0 < k)).sum = l.sum := by
  induction l with
  | nil => rfl
  | cons a l ih =>
    by_cases ha : 0 < a
    · simp [List.filter_cons, ha, ih]
    · have ha0 : a = 0 := by omega
      simp [List.filter_cons, ha0, ih]

theorem intervalMem_right_first (a b x : ℤ) :
    intervalMem true true a b x = (decide (a ≤ x) && decide (x ≤ b)) := rfl

theorem intervalMem_right_next (a b x : ℤ) :
    intervalMem true false a b x = (decide (a < x) && decide (x ≤ b)) := rfl

theorem intervalMem_left (incl : Bool) (a b x : ℤ) :
    intervalMem false incl a b x = (decide (a ≤ x) && decide (x < b)) := rfl

theorem cutCountsGo_sum_right (data : List ℤ) :
    ∀ (edges : List ℤ) (a : ℤ), List.Chain' (· ≤ ·) (a :: edges) →
      (cutCountsGo true data a edges).sum
        = data.countP fun x => decide (a < x) && decide (x ≤ edges.getLastD a) := by
  intro edges
  induction edges with
  | nil =>
    intro a _
    simp only [cutCountsGo, List.sum_nil, List.getLastD_nil]
    symm
    rw [List.countP_eq_zero]
    intro x _
    simp only [Bool.and_eq_true, decide_eq_true_eq, not_and]
    omega
  | cons b rest ih =>
    intro a hch
    rcases List.chain'_cons.mp hch with ⟨hab, hch'⟩
    have hbL : b ≤ rest.getLastD b := chain'_le_getLastD rest b hch'
    simp only [cutCountsGo, List.sum_cons]
    rw [ih b hch', List.getLastD_cons]
    symm
    apply countP_split
    intro x _
    simp only [intervalMem_right_next, Bool.and_eq_true, decide_eq_true_eq]
    constructor
    · constructor
      · rintro ⟨h1, h2⟩
        by_cases hxb : x ≤ b
        · exact Or.inl ⟨h1, hxb⟩
        · exact Or.inr ⟨by omega, h2⟩
      · rintro (⟨h1, h2⟩ | ⟨h1, h2⟩)
        · exact ⟨h1, le_trans h2 hbL⟩
        · exact ⟨by omega, h2⟩
    · rintro ⟨⟨h1, h2⟩, ⟨h3, h4⟩⟩
      omega

theorem cutCountsGo_sum_left (data : List ℤ) :
    ∀ (edges : List ℤ) (a : ℤ), List.Chain' (· ≤ ·) (a :: edges) →
      (cutCountsGo false data a edges).sum
        = data.countP fun x => decide (a ≤ x) && decide (x < edges.getLastD a) := by
  intro edges
  induction edges with
  | nil =>
    intro a _
    simp only [cutCountsGo, List.sum_nil, List.getLastD_nil]
    symm
    rw [List.countP_eq_zero]
    intro x _
    simp only [Bool.and_eq_true, decide_eq_true_eq, not_and]
    omega
  | cons b rest ih =>
    intro a hch
    rcases List.chain'_cons.mp hch with ⟨hab, hch'⟩
    have hbL : b ≤ rest.getLastD b := chain'_le_getLastD rest b hch'
    simp only [cutCountsGo, List.sum_cons]
    rw [ih b hch', List.getLastD_cons]
    symm
    apply countP_split
    intro x _
    simp only [intervalMem_left, Bool.and_eq_true, decide_eq_true_eq]
    constructor
    · constructor
      · rintro ⟨h1, h2⟩
        by_cases hxb : x < b
        · exact Or.inl ⟨h1, hxb⟩
        · exact Or.inr ⟨by omega, h2⟩
      · rintro (⟨h1, h2⟩ | ⟨h1, h2⟩)
        · exact ⟨h1, by omega⟩
        · exact ⟨by omega, h2⟩
    · rintro ⟨⟨h1, h2⟩, ⟨h3, h4⟩⟩
      omega

/-- C2: for every non-empty non-decreasing timestamp series and every
non-decreasing opposite-axis bin series, `calculate_steps` succeeds (the
constructed bin edges are strictly increasing, as `pd.cut` demands) and its
step counts sum exactly to the length of the input series; in `run` this is
instantiated with the test stream bucketed by the train event times
(`right=False`) and the train event stream bucketed by the test times
(`right=True`), so the test steps sum to the test-stream length and the train
steps to the train-event-stream length. -/
theorem calculate_steps_sum (data bins : List ℤ) (right : Bool)
    (hne : data ≠ []) (hdata : List.Sorted (· ≤ ·) data) (hbins : List.Sorted (· ≤ ·) bins) :
    (calculate_steps data bins right).map List.sum = some data.length := by
  cases data with
  | nil => exact absurd rfl hne
  | cons d0 dtl =>
    set dL : ℤ := (d0 :: dtl).getLastD d0 with hdLdef
    set e0 : ℤ := d0 - (if right then 1 else 0) with he0def
    set eL : ℤ := dL + (if right then 0 else 1) with heLdef
    set internal : List ℤ :=
      bins.filter (fun b => decide (min e0 eL < b) && decide (b < max e0 eL)) with hintdef
    set full : List ℤ := dropDup (e0 :: (internal ++ [eL])) with hfulldef
    have hd0_le : ∀ x ∈ d0 :: dtl, d0 ≤ x := by
      intro x hx
      rcases List.mem_cons.mp hx with hx | hx
      · exact hx ▸ le_refl d0
      · exact (List.sorted_cons.mp hdata).1 x hx
    have hdL_ge : ∀ x ∈ d0 :: dtl, x ≤ dL := fun x hx =>
      le_getLastD_of_sorted (d0 :: dtl) d0 x hdata hx
    have hd0dL : d0 ≤ dL := hdL_ge d0 (List.mem_cons_self d0 dtl)
    have h0L : e0 < eL := by
      rw [he0def, heLdef]
      cases right <;> simp <;> omega
    have hmin : min e0 eL = e0 := min_eq_left h0L.le
    have hmax : max e0 eL = eL := max_eq_right h0L.le
    have hint_mem : ∀ b ∈ internal, e0 < b ∧ b < eL := by
      intro b hb
      rw [hintdef] at hb
      rcases List.mem_filter.mp hb with ⟨_, hcond⟩
      simp only [Bool.and_eq_true, decide_eq_true_eq] at hcond
      rw [hmin, hmax] at hcond
      exact hcond
    have hint_sorted : List.Sorted (· ≤ ·) internal := by
      rw [hintdef]
      exact hbins.filter _
    have hpre_sorted : List.Sorted (· ≤ ·) (e0 :: (internal ++ [eL])) := by
      rw [List.sorted_cons]
      refine ⟨?_, ?_⟩
      · intro b hb
        rcases List.mem_append.mp hb with hb | hb
        · exact (hint_mem b hb).1.le
        · rw [List.mem_singleton.mp hb]
          exact h0L.le
      · refine List.pairwise_append.mpr ⟨hint_sorted, by simp, ?_⟩
        intro x hx y hy
        rw [List.mem_singleton.mp hy]
        exact (hint_mem x hx).2.le
    have hfull_sub : full.Sublist (e0 :: (internal ++ [eL])) := by
      rw [hfulldef]
      exact dropDupAux_sublist _ []
    have hfull_sorted_le : List.Sorted (· ≤ ·) full :=
      List.Pairwise.sublist hfull_sub hpre_sorted
    have hfull_nodup : full.Nodup := by
      rw [hfulldef]
      exact dropDupAux_nodup _ []
    have hfull_lt : List.Sorted (· < ·) full := hfull_sorted_le.lt_of_le hfull_nodup
    have hchain_lt : List.Chain' (· < ·) full := hfull_lt.chain'
    have hmemfull : ∀ x, x ∈ full ↔ x ∈ e0 :: (internal ++ [eL]) := by
      intro x
      rw [hfulldef]
      show x ∈ dropDupAux [] _ ↔ _
      rw [mem_dropDupAux]
      simp
    have heL_mem : eL ∈ full := (hmemfull eL).mpr (by simp)
    have hbound : ∀ y ∈ full, y ≤ eL := by
      intro y hy
      rcases List.mem_cons.mp ((hmemfull y).mp hy) with hy | hy
      · rw [hy]
        exact h0L.le
      · rcases List.mem_append.mp hy with hy | hy
        · exact (hint_mem y hy).2.le
        · rw [List.mem_singleton.mp hy]
    have hfull_head : full = e0 :: dropDupAux [e0] (internal ++ [eL]) := by
      rw [hfulldef]
      show dropDupAux [] (e0 :: (internal ++ [eL])) = _
      simp [dropDupAux]
    obtain ⟨tl, htl⟩ : ∃ tl, full = e0 :: tl := ⟨_, hfull_head⟩
    have htl_ne : tl ≠ [] := by
      intro h
      rw [h] at htl
      rw [htl] at heL_mem
      exact absurd (List.mem_singleton.mp heL_mem) (ne_of_gt h0L)
    have hlen2 : 2 ≤ full.length := by
      rw [htl, List.length_cons]
      have := List.length_pos.mpr htl_ne
      omega
    have hlast : full.getLastD e0 = eL := by
      refine le_antisymm ?_ ?_
      · exact hbound _ (getLastD_mem full e0 (by rw [htl]; simp))
      · exact le_getLastD_of_sorted full e0 eL hfull_sorted_le heL_mem
    have hunfold : calculate_steps (d0 :: dtl) bins right
        = some ((cutCounts right (d0 :: dtl) full).filter fun k => decide (0 < k)) := by
      show (if 2 ≤ full.length ∧ List.Chain' (· < ·) full
          then some ((cutCounts right (d0 :: dtl) full).filter fun k => decide (0 < k))
          else none)
        = some ((cutCounts right (d0 :: dtl) full).filter fun k => decide (0 < k))
      rw [if_pos ⟨hlen2, hchain_lt⟩]
    rw [hunfold, Option.map_some', sum_filter_pos]
    refine congrArg some ?_
    obtain ⟨f1, frest, hf⟩ : ∃ f1 frest, tl = f1 :: frest := by
      cases tl with
      | nil => exact absurd rfl htl_ne
      | cons f1 frest => exact ⟨f1, frest, rfl⟩
    have hCle : List.Chain' (· ≤ ·) (e0 :: f1 :: frest) := by
      have h := hfull_sorted_le
      rw [htl, hf] at h
      exact h.chain'
    rcases List.chain'_cons.mp hCle with ⟨h01, hC1⟩
    have hf1L : f1 ≤ frest.getLastD f1 := chain'_le_getLastD frest f1 hC1
    have hLeL : frest.getLastD f1 = eL := by
      have h := hlast
      rw [htl, hf, List.getLastD_cons, List.getLastD_cons] at h
      exact h
    have hf1eL : f1 ≤ eL := hLeL ▸ hf1L
    rw [htl, hf]
    cases right with
    | true =>
      simp only [cutCounts, List.sum_cons]
      rw [cutCountsGo_sum_right (d0 :: dtl) frest f1 hC1, hLeL]
      have hsplit : (d0 :: dtl).countP (fun x => decide (e0 ≤ x) && decide (x ≤ eL))
          = (d0 :: dtl).countP (intervalMem true true e0 f1)
            + (d0 :: dtl).countP (fun x => decide (f1 < x) && decide (x ≤ eL)) := by
        apply countP_split
        intro x _
        simp only [intervalMem_right_first, Bool.and_eq_true, decide_eq_true_eq]
        constructor
        · constructor
          · rintro ⟨h1, h2⟩
            by_cases hxf : x ≤ f1
            · exact Or.inl ⟨h1, hxf⟩
            · exact Or.inr ⟨by omega, h2⟩
          · rintro (⟨h1, h2⟩ | ⟨h1, h2⟩)
            · exact ⟨h1, by omega⟩
            · exact ⟨by omega, h2⟩
        · rintro ⟨⟨_, h2⟩, ⟨h3, _⟩⟩
          omega
      rw [← hsplit, List.countP_eq_length]
      intro x hx
      have h1 := hd0_le x hx
      have h2 := hdL_ge x hx
      have he0' : e0 = d0 - 1 := by rw [he0def]; simp
      have heL' : eL = dL := by rw [heLdef]; simp
      simp only [Bool.and_eq_true, decide_eq_true_eq]
      constructor
      · omega
      · omega
    | false =>
      simp only [cutCounts, List.sum_cons]
      rw [cutCountsGo_sum_left (d0 :: dtl) frest f1 hC1, hLeL]
      have hsplit : (d0 :: dtl).countP (fun x => decide (e0 ≤ x) && decide (x < eL))
          = (d0 :: dtl).countP (intervalMem false true e0 f1)
            + (d0 :: dtl).countP (fun x => decide (f1 ≤ x) && decide (x < eL)) := by
        apply countP_split
        intro x _
        simp only [intervalMem_left, Bool.and_eq_true, decide_eq_true_eq]
        constructor
        · constructor
          · rintro ⟨h1, h2⟩
            by_cases hxf : x < f1
            · exact Or.inl ⟨h1, hxf⟩
            · exact Or.inr ⟨by omega, h2⟩
          · rintro (⟨h1, h2⟩ | ⟨h1, h2⟩)
            · exact ⟨h1, by omega⟩
            · exact ⟨by omega, h2⟩
        · rintro ⟨⟨_, h2⟩, ⟨h3, _⟩⟩
          omega
      rw [← hsplit, List.countP_eq_length]
      intro x hx
      have h1 := hd0_le x hx
      have h2 := hdL_ge x hx
      have he0' : e0 = d0 := by rw [he0def]; simp
      have heL' : eL = dL + 1 := by rw [heLdef]; simp
      simp only [Bool.and_eq_true, decide_eq_true_eq]
      constructor
      · omega
      · omega

theorem calculate_steps_sum_witness :
    (([0, 3, 5] : List ℤ) ≠ []) ∧
      (calculate_steps [0, 3, 5] [2, 4] true).map List.sum = some ([0, 3, 5] : List ℤ).length :=
  ⟨by decide,
    calculate_steps_sum [0, 3, 5] [2, 4] true (by decide) (by decide) (by decide)⟩
